import Mathlib

/-!
A shallow embedding of the repository's single logic module, `scripts/leetcode.py`
(class `Leetcode`), together with proofs about it.

Strings are modelled by Lean `String` (kernel-level: a structure over `List Char`);
all Python string operations used by the script (`str.strip`, `str.split`,
`"\n".join`, `str.count`, `str.isdigit`, `int`, `in`) are re-implemented below as
structurally recursive functions over `List Char`, so every definition is
executable and decidable.  Python's stable `list.sort(key=...)` is modelled by a
stable insertion sort (stable sorts with respect to a total preorder agree
extensionally, so this is a faithful model of Timsort's observable behaviour).
The filesystem touched by `setup_problem_directory` is modelled explicitly as a
record of directories and an association list of file contents; `datetime.now()`
and the network response are passed in as parameters.
-/

namespace LC

/-- The ASCII whitespace characters stripped by Python's `str.strip()`
(space, tab, newline, carriage return, vertical tab, form feed). -/
def pyWS (c : Char) : Bool :=
  c == ' ' || c == '\t' || c == '\n' || c == '\r' || c == Char.ofNat 11 || c == Char.ofNat 12

/-- Python `str.strip()` on a list of characters: drop whitespace from both ends. -/
def pyStripL (l : List Char) : List Char :=
  ((l.dropWhile pyWS).reverse.dropWhile pyWS).reverse

/-- Python `str.split(sep)` for a single-character separator: split at every
occurrence of `sep`, keeping empty pieces (`"".split` gives `[""]`).  The
recursive call never returns `[]`, so `headD`/`tail` always see a cons. -/
def splitOnChar (sep : Char) : List Char → List (List Char)
  | [] => [[]]
  | c :: r =>
    let rest := splitOnChar sep r
    if c == sep then [] :: rest else (c :: rest.headD []) :: rest.tail

/-- Python `"\n".join(lines)` on a list of strings, as a character list. -/
def joinNL : List String → List Char
  | [] => []
  | [s] => s.toList
  | s :: t :: r => s.toList ++ '\n' :: joinNL (t :: r)

/-- Python `str.isdigit()` for ASCII input: nonempty and all decimal digits. -/
def isDigits (l : List Char) : Bool :=
  !l.isEmpty && l.all (fun c => c.isDigit)

/-- Python `int(...)` on a decimal digit string. -/
def decValue (l : List Char) : Nat :=
  l.foldl (fun n c => n * 10 + (c.toNat - 48)) 0

/-- The character test `[^/]` of the slug-extracting regular expression. -/
def notSlash (c : Char) : Bool := c != '/'

/-- The literal marker `problems/` of the regular expression in
`extract_question_slug` (`re.search(r"problems/([^/]+)", url)`). -/
def markerL : List Char := "problems/".toList

/-- One attempted match of the pattern `problems/([^/]+)` anchored at the start of
`l`: the marker must be a prefix and the following maximal run of non-`/`
characters (the greedy `[^/]+`) must be nonempty. -/
def matchSlugAt (l : List Char) : Option (List Char) :=
  if markerL.isPrefixOf l then
    let run := (l.drop 9).takeWhile notSlash
    if run.isEmpty then none else some run
  else none

/-- `re.search` semantics for the pattern `problems/([^/]+)`: try to match at each
position, left to right, returning the first successful capture group. -/
def searchSlug : List Char → Option (List Char)
  | [] => none
  | c :: r =>
    match matchSlugAt (c :: r) with
    | some s => some s
    | none => searchSlug r

/-- `Leetcode.extract_question_slug` (leetcode.py lines 70-73):
`match = re.search(r"problems/([^/]+)", url); return match.group(1) if match else None`. -/
def extract_question_slug (url : String) : Option String :=
  (searchSlug url.toList).map String.mk

/-- A full match of the pattern `problems/([^/]+)` at offset `i` of `l`: the
marker is a prefix of `l.drop i` and at least one non-`/` character follows. -/
def fullMatchAt (l : List Char) (i : Nat) : Bool :=
  markerL.isPrefixOf (l.drop i)
    && (match l.drop (i + 9) with
        | [] => false
        | c :: _ => notSlash c)

/-- The claim's own reading of the extractor (stated for comparison with
`extract_question_slug`, following the claim's words, not the source): the
maximal run of non-`/` characters immediately following the first occurrence of
the substring `problems/` anywhere in the input, `none` when the substring does
not occur at all. -/
def firstMarkerRun : List Char → Option (List Char)
  | [] => none
  | c :: r =>
    if markerL.isPrefixOf (c :: r) then some (((c :: r).drop 9).takeWhile notSlash)
    else firstMarkerRun r

/-- The dictionary returned by `fetch_problem_data` on success: the problem
record that flows into scaffolding and the index update. -/
structure QData where
  question_id : String
  question_title : String
  question_slug : String
  difficulty : String
  topic_tags : String
deriving DecidableEq, Repr

/-- The content written when `README.md` does not exist
(leetcode.py lines 103-109). -/
def defaultReadme : String :=
  "# Leetcode\n\n### Leetcode Problem Index\n\n| # | Title | Solution | Tags | Difficulty |\n|:----:|:--------:|:--------:|:-------:|:----------:|\n"

/-- `lines = [line.strip() for line in f.readlines() if line.strip()]`
(leetcode.py lines 111-112): split the file content on newlines, strip each
line, keep the nonempty ones. -/
def readLines (content : String) : List String :=
  (((splitOnChar '\n' content.toList).map pyStripL).filter (fun l => !l.isEmpty)).map String.mk

/-- The `new_entry` f-string of `update_main_readme` (leetcode.py lines 114-117). -/
def newEntry (qd : QData) (url : String) : String :=
  let folder_name := qd.question_id ++ "." ++ qd.question_slug
  let solution_path := "problemset/" ++ folder_name ++ "/" ++ qd.question_slug ++ ".py"
  "| " ++ qd.question_id ++ " | [" ++ qd.question_title ++ "](" ++ url
    ++ ") | [Python](" ++ solution_path ++ ") | " ++ qd.topic_tags
    ++ " | " ++ qd.difficulty ++ " |"

/-- `if new_entry not in lines: lines.append(new_entry)` (leetcode.py lines 119-120). -/
def dedupAppend (lines : List String) (e : String) : List String :=
  if e ∈ lines then lines else lines ++ [e]

/-- The table-row filter `line.count("|") >= 5` (leetcode.py line 125). -/
def pipeOK (s : String) : Bool := decide (5 ≤ s.toList.count '|')

/-- The sort key of leetcode.py lines 127-131:
`int(x.split("|")[1].strip()) if x.split("|")[1].strip().isdigit() else float("inf")`.
`none` models `float("inf")`.  (After the `pipeOK` filter the row has at least
five `|`, so index 1 of the split always exists; `getD` supplies the default
only outside that invariant.) -/
def sortKey (s : String) : Option Nat :=
  let cell := pyStripL ((splitOnChar '|' s.toList).getD 1 [])
  if isDigits cell then some (decValue cell) else none

/-- The `≤` order on sort keys, with `none` as `float("inf")`. -/
def keyLe : Option Nat → Option Nat → Bool
  | some a, some b => a ≤ b
  | some _, none => true
  | none, some _ => false
  | none, none => true

/-- Row comparison used by the entries sort. -/
def entryLe (x y : String) : Bool := keyLe (sortKey x) (sortKey y)

/-- Stable insertion into a sorted list: `a` goes in front of the first element
it is `le`-below-or-equal, hence after every earlier element of equal key. -/
def insertStable (le : α → α → Bool) (a : α) : List α → List α
  | [] => [a]
  | b :: l => if le a b then a :: b :: l else b :: insertStable le a l

/-- Stable insertion sort, modelling Python's stable `list.sort`. -/
def stableSort (le : α → α → Bool) : List α → List α
  | [] => []
  | a :: l => insertStable le a (stableSort le l)

/-- The content read by `update_main_readme`: the existing document, or the
just-created header content when `README.md` does not exist. -/
def contentOf (doc : Option String) : String :=
  match doc with
  | none => defaultReadme
  | some d => d

/-- `Leetcode.update_main_readme` (leetcode.py lines 99-134) as a pure function:
the argument is the current content of `README.md` (`none` when the file does
not exist, in which case the header content is created first), the result is the
content written back. -/
def update_main_readme (doc : Option String) (qd : QData) (url : String) : String :=
  let lines := dedupAppend (readLines (contentOf doc)) (newEntry qd url)
  let header := lines.take 4
  let entries := (lines.drop 4).filter pipeOK
  String.mk (joinNL (header ++ stableSort entryLe entries) ++ ['\n'])

/-- The physical lines of a document: split its character content at `'\n'`. -/
def physLines (s : String) : List String :=
  (splitOnChar '\n' s.toList).map String.mk

/-- A `topicTags` element of the GraphQL response. -/
structure TagJ where
  name : String
deriving DecidableEq, Repr

/-- The `question` object of the GraphQL response. -/
structure QuestionJ where
  questionFrontendId : String
  title : String
  difficulty : String
  topicTags : List TagJ
deriving DecidableEq, Repr

/-- The decoded JSON body of the GraphQL response: either the `"data"` key is
absent, or it is present with a possibly-null `question`. -/
inductive Body where
  | missingData : Body
  | withQuestion : Option QuestionJ → Body
deriving DecidableEq, Repr

/-- The outcome of the one network interaction of `fetch_problem_data`: either
the transport (or JSON decoding) raises, or a response with a status arrives. -/
inductive FetchOutcome where
  | transportError : FetchOutcome
  | response : Nat → Body → FetchOutcome
deriving DecidableEq, Repr

/-- Python `", ".join(...)`. -/
def joinComma : List String → String
  | [] => ""
  | [s] => s
  | s :: t :: r => s ++ ", " ++ joinComma (t :: r)

/-- `Leetcode.fetch_problem_data` (leetcode.py lines 25-68) as a pure function of
the modelled network outcome.  Every failure path (transport exception, non-200
status, missing `"data"` envelope, null `question`) returns `none`; the
`try/except` swallowing of exceptions is modelled by totality. -/
def fetch_problem_data (outcome : FetchOutcome) (question_slug : String) : Option QData :=
  match outcome with
  | .transportError => none
  | .response status body =>
    if status ≠ 200 then none
    else
      match body with
      | .missingData => none
      | .withQuestion none => none
      | .withQuestion (some q) =>
        some { question_id := q.questionFrontendId
               question_title := q.title
               question_slug := question_slug
               difficulty := q.difficulty
               topic_tags := joinComma (q.topicTags.map TagJ.name) }

/-- The filesystem model: a set of existing directories and an association list
from file paths to file contents. -/
structure FS where
  dirs : List String
  files : List (String × String)
deriving DecidableEq, Repr

/-- `os.path.exists`: true for an existing file or directory. -/
def pathExists (fs : FS) (p : String) : Bool :=
  (fs.files.lookup p).isSome || decide (p ∈ fs.dirs)

/-- Record one directory as existing (no effect if already present). -/
def addDir (fs : FS) (d : String) : FS :=
  if d ∈ fs.dirs then fs else { fs with dirs := d :: fs.dirs }

/-- `os.makedirs(path, exist_ok=True)`: ensure the parent and the directory
itself exist; never an error on pre-existing directories. -/
def ensureDirs (fs : FS) : List String → FS
  | [] => fs
  | d :: ds => ensureDirs (addDir fs d) ds

/-- `open(path, "w")` followed by writing `c`: the new binding shadows any older
one in the association list. -/
def writeFile (fs : FS) (p c : String) : FS :=
  { fs with files := (p, c) :: fs.files }

/-- The `if not os.path.exists(path): open(path, "w") ...` pattern of
`setup_problem_directory`: create the file with content `c` only when the path
does not exist yet. -/
def ensureFile (fs : FS) (p c : String) : FS :=
  if pathExists fs p then fs else writeFile fs p c

/-- `Leetcode.generate_solution_metadata` (leetcode.py lines 91-97); `now` stands
for `datetime.now().strftime("%d/%m/%Y %H:%M:%S IST")`. -/
def generate_solution_metadata (question_title now : String) : String :=
  "# Author: Abhinav Singh <abhinavsingh@duck.com>\n# Question: " ++ question_title
    ++ "\n# Solved On: " ++ now ++ "\n"

/-- `Leetcode.setup_problem_directory` (leetcode.py lines 75-89) as a filesystem
transformer: create `problemset/<id>.<slug>` (tolerating pre-existing
directories), create an empty `README.md` if absent, create the solution file
with its metadata header if absent. -/
def setup_problem_directory (fs : FS) (question_id question_slug question_title now : String) : FS :=
  let folder_name := question_id ++ "." ++ question_slug
  let folder_path := "problemset" ++ "/" ++ folder_name
  let fs1 := ensureDirs fs ["problemset", folder_path]
  let readme_path := folder_path ++ "/README.md"
  let solution_path := folder_path ++ "/" ++ question_slug ++ ".py"
  ensureFile (ensureFile fs1 readme_path "") solution_path
    (generate_solution_metadata question_title now)

/-- An ASCII apostrophe, kept out of string literals. -/
def sq : String := String.mk [Char.ofNat 39]

/-- The observable outcome of one run of `Leetcode.main`: the final filesystem,
the final content of the root `README.md` (`none` if still absent), whether the
network was contacted, and the console message printed by `main` itself. -/
structure RunResult where
  fs : FS
  readme : Option String
  networkCalled : Bool
  messages : List String
deriving DecidableEq, Repr

/-- `Leetcode.main` (leetcode.py lines 136-159) as a pure function of the typed
URL, the modelled network outcome, the initial filesystem, the initial root
`README.md` content and the current time. -/
def mainModel (url : String) (outcome : FetchOutcome) (fs0 : FS) (readme0 : Option String)
    (now : String) : RunResult :=
  match extract_question_slug url with
  | none => ⟨fs0, readme0, false, ["❌ Invalid Leetcode URL. Exiting..."]⟩
  | some slug =>
    match fetch_problem_data outcome slug with
    | none => ⟨fs0, readme0, true, ["❌ Failed to fetch problem details. Exiting..."]⟩
    | some qd =>
      let fs1 := setup_problem_directory fs0 qd.question_id qd.question_slug qd.question_title now
      ⟨fs1, some (update_main_readme readme0 qd url), true,
        ["✅ Problem " ++ sq ++ qd.question_title ++ sq ++ " setup completed successfully!"]⟩

/-- A string with no embedded newline (every line of a line-oriented document). -/
def nlFree (s : String) : Bool := decide ('\n' ∉ s.toList)

/-- The character-list pieces of `new_entry`, in order: the fixed delimiters of
the f-string interleaved with the record fields (`toList` of the whole row is
the flattening of these chunks). -/
def entryChunks (qd : QData) (url : String) : List (List Char) :=
  ["| ".toList, qd.question_id.toList, " | [".toList, qd.question_title.toList,
   "](".toList, url.toList, ") | [Python](".toList, "problemset/".toList,
   qd.question_id.toList, ".".toList, qd.question_slug.toList, "/".toList,
   qd.question_slug.toList, ".py".toList, ") | ".toList, qd.topic_tags.toList,
   " | ".toList, qd.difficulty.toList, " |".toList]

/-- All five record fields are newline-free (always true of data decoded from
one JSON response line, and of a URL read by `input()`). -/
def qdNlFree (qd : QData) : Bool :=
  nlFree qd.question_id && nlFree qd.question_title && nlFree qd.question_slug
    && nlFree qd.difficulty && nlFree qd.topic_tags

theorem length_dedupAppend_le (l : List String) (e : String) :
    (dedupAppend l e).length ≤ l.length + 1 := by
  unfold dedupAppend
  split
  · exact Nat.le_succ _
  · simp

set_option maxRecDepth 40000 in
/-- C2: starting from an absent (not-yet-created) index document, the update for
the record `{id:"1", title:"Two Sum", slug:"two-sum", difficulty:"Easy",
tags:"Array, Hash Table"}` and URL `https://leetcode.com/problems/two-sum/`
produces exactly the fixed 4-line header (the four non-blank header lines)
followed by the single Two Sum row and a trailing newline. -/
theorem c2_empty_doc_two_sum :
    update_main_readme none ⟨"1", "Two Sum", "two-sum", "Easy", "Array, Hash Table"⟩
        "https://leetcode.com/problems/two-sum/"
      = "# Leetcode\n### Leetcode Problem Index\n| # | Title | Solution | Tags | Difficulty |\n|:----:|:--------:|:--------:|:-------:|:----------:|\n| 1 | [Two Sum](https://leetcode.com/problems/two-sum/) | [Python](problemset/1.two-sum/two-sum.py) | Array, Hash Table | Easy |\n" := by
  decide

/-- C6: `fetch_problem_data` is a total function of the modelled response (the
`try/except` never lets an exception past the boundary); it returns `none`
exactly on a transport error, a non-200 status, a missing `"data"` envelope or
a null `question`, and otherwise returns the populated record with comma-joined
topic tags. -/
theorem c6_fetch_no_raise (o : FetchOutcome) (slug : String) :
    (fetch_problem_data o slug = none ↔
        o = .transportError
          ∨ (∃ st b, o = .response st b ∧ st ≠ 200)
          ∨ o = .response 200 .missingData
          ∨ o = .response 200 (.withQuestion none))
      ∧ ∀ q, o = .response 200 (.withQuestion (some q)) →
          fetch_problem_data o slug =
            some ⟨q.questionFrontendId, q.title, slug, q.difficulty,
                  joinComma (q.topicTags.map TagJ.name)⟩ := by
  constructor
  · cases o with
    | transportError => simp [fetch_problem_data]
    | response st b =>
      by_cases hst : st = 200
      · subst hst
        cases b with
        | missingData => simp [fetch_problem_data]
        | withQuestion q =>
          cases q with
          | none => simp [fetch_problem_data]
          | some q => simp [fetch_problem_data]
      · have hf : fetch_problem_data (.response st b) slug = none := by
          simp [fetch_problem_data, hst]
        exact ⟨fun _ => .inr (.inl ⟨st, b, rfl, hst⟩), fun _ => hf⟩
  · rintro q rfl
    simp [fetch_problem_data]

/-- Witness for C6 at concrete responses. -/
theorem c6_fetch_no_raise_witness :
    fetch_problem_data (.response 404 (.withQuestion none)) "two-sum" = none
      ∧ fetch_problem_data
          (.response 200 (.withQuestion (some ⟨"1", "Two Sum", "Easy", [⟨"Array"⟩, ⟨"Hash Table"⟩]⟩)))
          "two-sum"
        = some ⟨"1", "Two Sum", "two-sum", "Easy", "Array, Hash Table"⟩ :=
  ⟨(c6_fetch_no_raise (.response 404 (.withQuestion none)) "two-sum").1.2
      (.inr (.inl ⟨404, .withQuestion none, rfl, by decide⟩)),
    (c6_fetch_no_raise (.response 200 (.withQuestion (some ⟨"1", "Two Sum", "Easy",
        [⟨"Array"⟩, ⟨"Hash Table"⟩]⟩))) "two-sum").2 _ rfl⟩

/-- C7: when the slug is missing, `main` stops with an error message, performs
no network call and no filesystem or index change; when the fetch returns the
no-data signal, `main` stops with an error message after the (one) network call
and performs no filesystem or index change. -/
theorem c7_abort_without_writes (url : String) (o : FetchOutcome) (fs0 : FS)
    (r0 : Option String) (now : String) :
    (extract_question_slug url = none →
        mainModel url o fs0 r0 now = ⟨fs0, r0, false, ["❌ Invalid Leetcode URL. Exiting..."]⟩)
      ∧ ∀ slug, extract_question_slug url = some slug → fetch_problem_data o slug = none →
          mainModel url o fs0 r0 now
            = ⟨fs0, r0, true, ["❌ Failed to fetch problem details. Exiting..."]⟩ := by
  constructor
  · intro h
    simp [mainModel, h]
  · intro slug h1 h2
    simp [mainModel, h1, h2]

/-- Witness for C7: a URL without a slug, and a valid URL whose fetch fails. -/
theorem c7_abort_without_writes_witness :
    mainModel "https://leetcode.com/discuss/general" .transportError ⟨[], []⟩ none "now"
        = ⟨⟨[], []⟩, none, false, ["❌ Invalid Leetcode URL. Exiting..."]⟩
      ∧ mainModel "https://leetcode.com/problems/two-sum/" .transportError ⟨[], []⟩ none "now"
        = ⟨⟨[], []⟩, none, true, ["❌ Failed to fetch problem details. Exiting..."]⟩ :=
  ⟨(c7_abort_without_writes "https://leetcode.com/discuss/general" .transportError
      ⟨[], []⟩ none "now").1 (by decide),
    (c7_abort_without_writes "https://leetcode.com/problems/two-sum/" .transportError
      ⟨[], []⟩ none "now").2 "two-sum" (by decide) rfl⟩

/-- C9: the new row is appended before the header/entries split, so when the
pre-existing document has at most 3 non-blank lines, everything (the old lines
and the new row) is part of the first-4-lines header slice: the rewritten
document is exactly the old stripped lines plus the (dedup-)appended row, in
order, with no 5-delimiter filter and no sort applied. -/
theorem c9_short_document_header_slice (doc : String) (qd : QData) (url : String)
    (h : (readLines doc).length ≤ 3) :
    update_main_readme (some doc) qd url
      = String.mk (joinNL (dedupAppend (readLines doc) (newEntry qd url)) ++ ['\n']) := by
  have hlen : (dedupAppend (readLines doc) (newEntry qd url)).length ≤ 4 :=
    le_trans (length_dedupAppend_le _ _) (by omega)
  simp only [update_main_readme, contentOf]
  rw [List.take_of_length_le hlen, List.drop_eq_nil_of_le hlen]
  simp [stableSort]

/-- Witness for C9: a two-line document; the malformed row `bad` survives the
rewrite because it is counted into the header slice. -/
theorem files_addDir (fs : FS) (d : String) : (addDir fs d).files = fs.files := by
  unfold addDir
  split <;> rfl

theorem files_ensureDirs (ds : List String) : ∀ fs : FS, (ensureDirs fs ds).files = fs.files := by
  induction ds with
  | nil => intro fs; rfl
  | cons d ds ih => intro fs; rw [ensureDirs, ih, files_addDir]

theorem mem_dirs_addDir_self (fs : FS) (d : String) : d ∈ (addDir fs d).dirs := by
  unfold addDir
  split
  · assumption
  · exact List.mem_cons_self _ _

theorem mem_dirs_addDir_mono (fs : FS) (d d' : String) (h : d' ∈ fs.dirs) :
    d' ∈ (addDir fs d).dirs := by
  unfold addDir
  split
  · exact h
  · exact List.mem_cons_of_mem _ h

theorem mem_dirs_ensureDirs_mono (ds : List String) :
    ∀ (fs : FS) (d' : String), d' ∈ fs.dirs → d' ∈ (ensureDirs fs ds).dirs := by
  induction ds with
  | nil => intro fs d' h; exact h
  | cons d ds ih => intro fs d' h; exact ih _ _ (mem_dirs_addDir_mono fs d d' h)

theorem mem_dirs_ensureDirs_arg (ds : List String) :
    ∀ (fs : FS) (d : String), d ∈ ds → d ∈ (ensureDirs fs ds).dirs := by
  induction ds with
  | nil => intro fs d h; cases h
  | cons d0 ds ih =>
    intro fs d h
    rcases List.mem_cons.1 h with h | h
    · subst h
      exact mem_dirs_ensureDirs_mono ds _ _ (mem_dirs_addDir_self fs d)
    · exact ih _ _ h

theorem addDir_eq_self (fs : FS) (d : String) (h : d ∈ fs.dirs) : addDir fs d = fs := by
  simp [addDir, h]

theorem ensureDirs_eq_self (ds : List String) :
    ∀ fs : FS, (∀ d ∈ ds, d ∈ fs.dirs) → ensureDirs fs ds = fs := by
  induction ds with
  | nil => intro fs _; rfl
  | cons d ds ih =>
    intro fs h
    rw [ensureDirs, addDir_eq_self fs d (h d (List.mem_cons_self _ _))]
    exact ih fs fun d' hd' => h d' (List.mem_cons_of_mem _ hd')

theorem lookup_writeFile_self (fs : FS) (p c : String) :
    (writeFile fs p c).files.lookup p = some c := by
  simp [writeFile, List.lookup]

theorem lookup_writeFile_ne (fs : FS) (p c q : String) (h : q ≠ p) :
    (writeFile fs p c).files.lookup q = fs.files.lookup q := by
  simp [writeFile, List.lookup, beq_false_of_ne h]

theorem lookup_eq_none_of_not_pathExists (fs : FS) (p : String) (h : pathExists fs p = false) :
    fs.files.lookup p = none := by
  cases hx : fs.files.lookup p with
  | none => rfl
  | some v => exact absurd h (by simp [pathExists, hx])

theorem pathExists_writeFile_self (fs : FS) (p c : String) :
    pathExists (writeFile fs p c) p = true := by
  simp [pathExists, lookup_writeFile_self]

theorem pathExists_writeFile_mono (fs : FS) (p c q : String) (h : pathExists fs q = true) :
    pathExists (writeFile fs p c) q = true := by
  by_cases hqp : q = p
  · subst hqp
    exact pathExists_writeFile_self fs q c
  · have hd : (writeFile fs p c).dirs = fs.dirs := rfl
    simp only [pathExists, lookup_writeFile_ne fs p c q hqp, hd]
    simpa [pathExists] using h

theorem dirs_ensureFile (fs : FS) (p c : String) : (ensureFile fs p c).dirs = fs.dirs := by
  unfold ensureFile
  split <;> rfl

theorem pathExists_ensureFile_self (fs : FS) (p c : String) :
    pathExists (ensureFile fs p c) p = true := by
  unfold ensureFile
  split
  · assumption
  · exact pathExists_writeFile_self fs p c

theorem pathExists_ensureFile_mono (fs : FS) (p c q : String) (h : pathExists fs q = true) :
    pathExists (ensureFile fs p c) q = true := by
  unfold ensureFile
  split
  · exact h
  · exact pathExists_writeFile_mono fs p c q h

theorem ensureFile_eq_self (fs : FS) (p c : String) (h : pathExists fs p = true) :
    ensureFile fs p c = fs := by
  simp [ensureFile, h]

theorem lookup_ensureFile_pres (fs : FS) (p c q cq : String)
    (h : fs.files.lookup q = some cq) : (ensureFile fs p c).files.lookup q = some cq := by
  unfold ensureFile
  split
  · exact h
  · have hq : q ≠ p := by
      intro hqp
      subst hqp
      rw [lookup_eq_none_of_not_pathExists fs q (by simp_all)] at h
      cases h
    rw [lookup_writeFile_ne fs p c q hq]
    exact h

theorem mem_dirs_ensureFile (fs : FS) (p c d : String) (h : d ∈ fs.dirs) :
    d ∈ (ensureFile fs p c).dirs := by
  rw [dirs_ensureFile]
  exact h

/-- C8: scaffolding is idempotent — a second invocation for the same
`(id, slug, title)` (at any later time `t2`) leaves the filesystem exactly as
after the first invocation — and an invocation never overwrites the content of
any already-existing file (in particular of an existing `README.md` or solution
file); directory creation tolerates pre-existing directories (`addDir` is a
no-op on an existing directory, so `ensureDirs` never fails). -/
theorem c8_scaffold_idempotent (fs : FS) (qid slug title t1 t2 : String) :
    setup_problem_directory (setup_problem_directory fs qid slug title t1) qid slug title t2
        = setup_problem_directory fs qid slug title t1
      ∧ ∀ p c, fs.files.lookup p = some c →
          (setup_problem_directory fs qid slug title t1).files.lookup p = some c := by
  have h1 : setup_problem_directory fs qid slug title t1
      = ensureFile
          (ensureFile (ensureDirs fs ["problemset", "problemset" ++ "/" ++ (qid ++ "." ++ slug)])
            ("problemset" ++ "/" ++ (qid ++ "." ++ slug) ++ "/README.md") "")
          ("problemset" ++ "/" ++ (qid ++ "." ++ slug) ++ "/" ++ slug ++ ".py")
          (generate_solution_metadata title t1) := rfl
  set folder := "problemset" ++ "/" ++ (qid ++ "." ++ slug) with hfolder
  set r := folder ++ "/README.md" with hr
  set s := folder ++ "/" ++ slug ++ ".py" with hs
  set fs1 := ensureDirs fs ["problemset", folder] with hfs1
  set fsO := setup_problem_directory fs qid slug title t1 with hfsO
  have hOd1 : "problemset" ∈ fsO.dirs := by
    rw [h1, dirs_ensureFile, dirs_ensureFile]
    exact mem_dirs_ensureDirs_arg _ fs _ (List.mem_cons_self _ _)
  have hOd2 : folder ∈ fsO.dirs := by
    rw [h1, dirs_ensureFile, dirs_ensureFile]
    exact mem_dirs_ensureDirs_arg _ fs _ (by simp)
  have hOr : pathExists fsO r = true := by
    rw [h1]
    exact pathExists_ensureFile_mono _ _ _ _ (pathExists_ensureFile_self fs1 r "")
  have hOs : pathExists fsO s = true := by
    rw [h1]
    exact pathExists_ensureFile_self _ s _
  constructor
  · have h2 : setup_problem_directory fsO qid slug title t2
        = ensureFile (ensureFile (ensureDirs fsO ["problemset", folder]) r "") s
            (generate_solution_metadata title t2) := rfl
    rw [h2, ensureDirs_eq_self _ fsO (by
      intro d hd
      rcases List.mem_cons.1 hd with h | h
      · subst h; exact hOd1
      · simp only [List.mem_singleton] at h; subst h; exact hOd2)]
    rw [ensureFile_eq_self fsO r "" hOr, ensureFile_eq_self fsO s _ hOs]
  · intro p c hp
    rw [h1]
    exact lookup_ensureFile_pres _ _ _ _ _ (lookup_ensureFile_pres _ _ _ _ _ (by
      rw [files_ensureDirs]
      exact hp))

/-- Witness for C8 on an initially empty filesystem. -/
theorem c8_scaffold_idempotent_witness :
    (setup_problem_directory (setup_problem_directory ⟨[], []⟩ "1" "two-sum" "Two Sum" "t1")
          "1" "two-sum" "Two Sum" "t2"
        = setup_problem_directory ⟨[], []⟩ "1" "two-sum" "Two Sum" "t1")
      ∧ (setup_problem_directory ⟨[], [("keep.txt", "content")]⟩ "1" "two-sum" "Two Sum" "t1").files.lookup
          "keep.txt" = some "content" :=
  ⟨(c8_scaffold_idempotent ⟨[], []⟩ "1" "two-sum" "Two Sum" "t1" "t2").1,
    (c8_scaffold_idempotent ⟨[], [("keep.txt", "content")]⟩ "1" "two-sum" "Two Sum" "t1" "t2").2
      "keep.txt" "content" (by decide)⟩

theorem c9_short_document_header_slice_witness :
    update_main_readme (some "# Leetcode\nbad\n") ⟨"1", "T", "t", "Easy", "A"⟩ "u"
      = String.mk (joinNL (dedupAppend (readLines "# Leetcode\nbad\n")
          (newEntry ⟨"1", "T", "t", "Easy", "A"⟩ "u")) ++ ['\n']) :=
  c9_short_document_header_slice "# Leetcode\nbad\n" ⟨"1", "T", "t", "Easy", "A"⟩ "u" (by decide)

theorem mem_insertStable (le : α → α → Bool) (a x : α) :
    ∀ l : List α, x ∈ insertStable le a l ↔ x = a ∨ x ∈ l := by
  intro l
  induction l with
  | nil => simp [insertStable]
  | cons b l ih =>
    unfold insertStable
    split
    · simp [List.mem_cons]
    · simp only [List.mem_cons, ih]
      tauto

theorem perm_insertStable (le : α → α → Bool) (a : α) :
    ∀ l : List α, (insertStable le a l).Perm (a :: l) := by
  intro l
  induction l with
  | nil => simp [insertStable]
  | cons b l ih =>
    unfold insertStable
    split
    · exact List.Perm.refl _
    · exact (ih.cons b).trans (List.Perm.swap a b l)

theorem perm_stableSort (le : α → α → Bool) : ∀ l : List α, (stableSort le l).Perm l := by
  intro l
  induction l with
  | nil => exact List.Perm.refl _
  | cons a l ih => exact (perm_insertStable le a (stableSort le l)).trans (ih.cons a)

theorem mem_stableSort (le : α → α → Bool) (x : α) (l : List α) :
    x ∈ stableSort le l ↔ x ∈ l :=
  (perm_stableSort le l).mem_iff

theorem pairwise_insertStable (le : α → α → Bool)
    (htot : ∀ a b, le a b = true ∨ le b a = true)
    (htrans : ∀ a b c, le a b = true → le b c = true → le a c = true) (a : α) :
    ∀ l : List α, l.Pairwise (fun x y => le x y = true) →
      (insertStable le a l).Pairwise (fun x y => le x y = true) := by
  intro l
  induction l with
  | nil => intro _; exact List.pairwise_singleton _ a
  | cons b l ih =>
    intro hp
    unfold insertStable
    split
    · refine List.pairwise_cons.2 ⟨?_, hp⟩
      intro x hx
      rcases List.mem_cons.1 hx with h | h
      · subst h; assumption
      · exact htrans a b x (by assumption) (List.rel_of_pairwise_cons hp h)
    · refine List.pairwise_cons.2 ⟨?_, ih hp.of_cons⟩
      intro x hx
      rcases (mem_insertStable le a x l).1 hx with h | h
      · rw [h]
        rcases htot a b with h' | h'
        · exact absurd h' (by assumption)
        · exact h'
      · exact List.rel_of_pairwise_cons hp h

theorem pairwise_stableSort (le : α → α → Bool)
    (htot : ∀ a b, le a b = true ∨ le b a = true)
    (htrans : ∀ a b c, le a b = true → le b c = true → le a c = true) :
    ∀ l : List α, (stableSort le l).Pairwise (fun x y => le x y = true) := by
  intro l
  induction l with
  | nil => exact List.Pairwise.nil
  | cons a l ih => exact pairwise_insertStable le htot htrans a _ ih

theorem stableSort_eq_of_pairwise (le : α → α → Bool) :
    ∀ l : List α, l.Pairwise (fun x y => le x y = true) → stableSort le l = l := by
  intro l
  induction l with
  | nil => intro _; rfl
  | cons a l ih =>
    intro hp
    rw [stableSort, ih hp.of_cons]
    cases l with
    | nil => rfl
    | cons b l =>
      unfold insertStable
      rw [if_pos (List.rel_of_pairwise_cons hp (List.mem_cons_self b l))]

theorem keyLe_total (a b : Option Nat) : keyLe a b = true ∨ keyLe b a = true := by
  cases a <;> cases b <;> simp [keyLe]
  omega

theorem keyLe_trans (a b c : Option Nat) (h1 : keyLe a b = true) (h2 : keyLe b c = true) :
    keyLe a c = true := by
  cases a <;> cases b <;> cases c <;> simp_all [keyLe]
  omega

theorem entryLe_total (x y : String) : entryLe x y = true ∨ entryLe y x = true :=
  keyLe_total (sortKey x) (sortKey y)

theorem entryLe_trans (x y z : String) (h1 : entryLe x y = true) (h2 : entryLe y z = true) :
    entryLe x z = true :=
  keyLe_trans (sortKey x) (sortKey y) (sortKey z) h1 h2

theorem splitOnChar_ne_nil (sep : Char) : ∀ l : List Char, splitOnChar sep l ≠ [] := by
  intro l
  induction l with
  | nil => simp [splitOnChar]
  | cons c r ih =>
    simp only [splitOnChar]
    split <;> simp

theorem splitOnChar_cons_eq (sep c : Char) (r p : List Char) (ps : List (List Char))
    (h : splitOnChar sep r = p :: ps) :
    splitOnChar sep (c :: r) = if c == sep then [] :: p :: ps else (c :: p) :: ps := by
  simp only [splitOnChar]
  rw [h]
  split <;> rfl

theorem not_mem_of_mem_splitOnChar (sep : Char) :
    ∀ (l : List Char) (piece : List Char), piece ∈ splitOnChar sep l → sep ∉ piece := by
  intro l
  induction l with
  | nil =>
    intro piece hp
    simp only [splitOnChar, List.mem_singleton] at hp
    subst hp
    simp
  | cons c r ih =>
    intro piece hp
    obtain ⟨p, ps, h⟩ := List.exists_cons_of_ne_nil (splitOnChar_ne_nil sep r)
    rw [splitOnChar_cons_eq sep c r p ps h] at hp
    by_cases hceq : c = sep
    · rw [if_pos (by simp [hceq])] at hp
      rcases List.mem_cons.1 hp with h' | h'
      · subst h'; simp
      · exact ih piece (by rw [h]; exact h')
    · rw [if_neg (by simp [hceq])] at hp
      rcases List.mem_cons.1 hp with h' | h'
      · subst h'
        intro hmem
        rcases List.mem_cons.1 hmem with h'' | h''
        · exact hceq h''.symm
        · exact ih p (by rw [h]; exact List.mem_cons_self p ps) h''
      · exact ih piece (by rw [h]; exact List.mem_cons_of_mem p h')

theorem splitOnChar_append_cons (sep : Char) :
    ∀ (l r : List Char), sep ∉ l → splitOnChar sep (l ++ sep :: r) = l :: splitOnChar sep r := by
  intro l
  induction l with
  | nil =>
    intro r _
    show splitOnChar sep (sep :: r) = [] :: splitOnChar sep r
    obtain ⟨p, ps, h⟩ := List.exists_cons_of_ne_nil (splitOnChar_ne_nil sep r)
    rw [splitOnChar_cons_eq sep sep r p ps h, if_pos (by simp), h]
  | cons c l ih =>
    intro r hmem
    have hc : (c == sep) = false := by
      refine beq_false_of_ne ?_
      intro h
      exact hmem (h ▸ List.mem_cons_self c l)
    show splitOnChar sep (c :: (l ++ sep :: r)) = (c :: l) :: splitOnChar sep r
    rw [splitOnChar_cons_eq sep c (l ++ sep :: r) l (splitOnChar sep r)
        (ih r (fun h => hmem (List.mem_cons_of_mem c h))),
      if_neg (by simp [hc])]

theorem split_joinNL :
    ∀ L : List String, L ≠ [] → (∀ s ∈ L, '\n' ∉ s.toList) →
      splitOnChar '\n' (joinNL L ++ ['\n']) = L.map String.toList ++ [[]] := by
  intro L
  induction L with
  | nil => intro h _; exact absurd rfl h
  | cons s L ih =>
    intro _ hnl
    cases L with
    | nil =>
      show splitOnChar '\n' (s.toList ++ '\n' :: []) = [s.toList] ++ [[]]
      rw [splitOnChar_append_cons '\n' s.toList [] (hnl s (List.mem_cons_self s []))]
      rfl
    | cons t L =>
      show splitOnChar '\n' ((s.toList ++ '\n' :: joinNL (t :: L)) ++ ['\n'])
        = (s.toList :: (t :: L).map String.toList) ++ [[]]
      rw [List.append_assoc, List.cons_append,
        splitOnChar_append_cons '\n' s.toList _ (hnl s (List.mem_cons_self s _)),
        ih (by simp) (fun x hx => hnl x (List.mem_cons_of_mem s hx))]
      rfl

theorem mem_pyStripL (c : Char) (l : List Char) (h : c ∈ pyStripL l) : c ∈ l := by
  unfold pyStripL at h
  rw [List.mem_reverse] at h
  have h1 := (List.dropWhile_suffix (l := (l.dropWhile pyWS).reverse) pyWS).subset h
  rw [List.mem_reverse] at h1
  exact (List.dropWhile_suffix (l := l) pyWS).subset h1

theorem dropWhile_dropWhile (p : α → Bool) :
    ∀ l : List α, (l.dropWhile p).dropWhile p = l.dropWhile p := by
  intro l
  induction l with
  | nil => rfl
  | cons a l ih =>
    rw [List.dropWhile_cons]
    split
    · exact ih
    · rw [List.dropWhile_cons, if_neg (by assumption)]

theorem dropWhile_of_prefix_of_fix (p : α → Bool) (l m : List α)
    (hfix : m.dropWhile p = m) (hpre : l <+: m) : l.dropWhile p = l := by
  cases l with
  | nil => rfl
  | cons a l =>
    cases m with
    | nil => exact absurd (List.prefix_nil.1 hpre) (by simp)
    | cons b m =>
      have hab : a = b := by
        rcases hpre with ⟨t, ht⟩
        have := congrArg List.head? ht
        simpa using this
      subst hab
      rw [List.dropWhile_cons] at hfix ⊢
      split
      · rename_i hpa
        rw [if_pos hpa] at hfix
        have hlen : (m.dropWhile p).length = m.length + 1 := by
          simpa using congrArg List.length hfix
        have hle : (m.dropWhile p).length ≤ m.length :=
          (List.dropWhile_suffix p (l := m)).sublist.length_le
        exact absurd hlen (by omega)
      · rfl

theorem stripEnd_prefix (p : α → Bool) (m : List α) :
    (m.reverse.dropWhile p).reverse <+: m := by
  refine List.reverse_suffix.1 ?_
  rw [List.reverse_reverse]
  exact List.dropWhile_suffix p

theorem toList_append (s t : String) : (s ++ t).toList = s.toList ++ t.toList :=
  String.data_append s t

theorem pyStripL_idem (l : List Char) : pyStripL (pyStripL l) = pyStripL l := by
  have hfix : (l.dropWhile pyWS).dropWhile pyWS = l.dropWhile pyWS := dropWhile_dropWhile pyWS l
  have hpre := stripEnd_prefix pyWS (l.dropWhile pyWS)
  have h1 := dropWhile_of_prefix_of_fix pyWS _ _ hfix hpre
  unfold pyStripL
  rw [h1, List.reverse_reverse, dropWhile_dropWhile]

theorem pyStripL_eq_self_of_ends (l : List Char) (c d : Char)
    (h1 : l.head? = some c) (hc : pyWS c = false)
    (h2 : l.reverse.head? = some d) (hd : pyWS d = false) :
    pyStripL l = l := by
  have hdw : l.dropWhile pyWS = l := by
    cases l with
    | nil => rfl
    | cons a t =>
      have ha : a = c := by simpa using h1
      subst ha
      simp [List.dropWhile_cons, hc]
  unfold pyStripL
  rw [hdw]
  have hdw2 : l.reverse.dropWhile pyWS = l.reverse := by
    cases hrev : l.reverse with
    | nil => rfl
    | cons a u =>
      have ha : a = d := by rw [hrev] at h2; simpa using h2
      subst ha
      simp [List.dropWhile_cons, hd]
  rw [hdw2, List.reverse_reverse]

theorem newEntry_toList_flatten (qd : QData) (url : String) :
    (newEntry qd url).toList = (entryChunks qd url).flatten := by
  simp [newEntry, entryChunks, toList_append, List.append_assoc]

theorem newEntry_head (qd : QData) (url : String) :
    (newEntry qd url).toList.head? = some '|' := rfl

theorem newEntry_revhead (qd : QData) (url : String) :
    (newEntry qd url).toList.reverse.head? = some '|' := by
  have h0 : newEntry qd url
      = ("| " ++ qd.question_id ++ " | [" ++ qd.question_title ++ "](" ++ url
          ++ ") | [Python](" ++ ("problemset/" ++ (qd.question_id ++ "." ++ qd.question_slug)
            ++ "/" ++ qd.question_slug ++ ".py") ++ ") | " ++ qd.topic_tags
          ++ " | " ++ qd.difficulty) ++ " |" := rfl
  rw [h0, toList_append, List.reverse_append]
  rfl

theorem newEntry_stripped (qd : QData) (url : String) :
    pyStripL (newEntry qd url).toList = (newEntry qd url).toList :=
  pyStripL_eq_self_of_ends _ '|' '|' (newEntry_head qd url) (by decide)
    (newEntry_revhead qd url) (by decide)

theorem newEntry_ne_nil (qd : QData) (url : String) : (newEntry qd url).toList ≠ [] := by
  intro h
  have := newEntry_head qd url
  rw [h] at this
  cases this

theorem newEntry_nlFree (qd : QData) (url : String)
    (hqd : qdNlFree qd = true) (hurl : nlFree url = true) :
    '\n' ∉ (newEntry qd url).toList := by
  simp only [qdNlFree, nlFree, Bool.and_eq_true, decide_eq_true_eq] at hqd
  obtain ⟨⟨⟨⟨h1, h2⟩, h3⟩, h4⟩, h5⟩ := hqd
  simp only [nlFree, decide_eq_true_eq] at hurl
  intro hmem
  rw [newEntry_toList_flatten] at hmem
  rcases List.mem_flatten.1 hmem with ⟨ch, hch, hcm⟩
  simp only [entryChunks, List.mem_cons, List.not_mem_nil, or_false] at hch
  rcases hch with rfl|rfl|rfl|rfl|rfl|rfl|rfl|rfl|rfl|rfl|rfl|rfl|rfl|rfl|rfl|rfl|rfl|rfl|rfl
  all_goals first
    | exact absurd hcm (by decide)
    | exact h1 hcm
    | exact h2 hcm
    | exact h3 hcm
    | exact h4 hcm
    | exact h5 hcm
    | exact hurl hcm

theorem pipeOK_newEntry (qd : QData) (url : String) : pipeOK (newEntry qd url) = true := by
  simp only [pipeOK]
  rw [decide_eq_true_eq, newEntry_toList_flatten, List.count_flatten]
  simp only [entryChunks, List.map_cons, List.map_nil, List.sum_cons, List.sum_nil]
  have e1 : "| ".toList.count '|' = 1 := by decide
  have e2 : " | [".toList.count '|' = 1 := by decide
  have e3 : ") | [Python](".toList.count '|' = 1 := by decide
  have e4 : ") | ".toList.count '|' = 1 := by decide
  have e5 : " | ".toList.count '|' = 1 := by decide
  have e6 : " |".toList.count '|' = 1 := by decide
  rw [e1, e2, e3, e4, e5, e6]
  omega

theorem readLines_mem_props (content : String) (x : String) (hx : x ∈ readLines content) :
    pyStripL x.toList = x.toList ∧ x.toList ≠ [] ∧ '\n' ∉ x.toList := by
  unfold readLines at hx
  rcases List.mem_map.1 hx with ⟨m, hm, rfl⟩
  rcases List.mem_filter.1 hm with ⟨hm2, hne⟩
  rcases List.mem_map.1 hm2 with ⟨piece, hpiece, rfl⟩
  refine ⟨pyStripL_idem piece, ?_, ?_⟩
  · intro h
    have h' : pyStripL piece = [] := h
    rw [h'] at hne
    simp at hne
  · intro hmem
    exact not_mem_of_mem_splitOnChar '\n' content.toList piece hpiece (mem_pyStripL _ _ hmem)

theorem mem_dedupAppend_self (l : List String) (e : String) : e ∈ dedupAppend l e := by
  unfold dedupAppend
  split
  · assumption
  · simp

theorem dedupAppend_of_mem (l : List String) (e : String) (h : e ∈ l) :
    dedupAppend l e = l := by
  simp [dedupAppend, h]

theorem dedup_lines_ne_nil (doc : Option String) (qd : QData) (url : String) :
    dedupAppend (readLines (contentOf doc)) (newEntry qd url) ≠ [] := by
  unfold dedupAppend
  split
  · intro h
    rename_i hmem
    rw [h] at hmem
    cases hmem
  · simp

theorem lines_props (doc : Option String) (qd : QData) (url : String)
    (hqd : qdNlFree qd = true) (hurl : nlFree url = true) :
    ∀ x ∈ dedupAppend (readLines (contentOf doc)) (newEntry qd url),
      pyStripL x.toList = x.toList ∧ x.toList ≠ [] ∧ '\n' ∉ x.toList := by
  intro x hx
  unfold dedupAppend at hx
  split at hx
  · exact readLines_mem_props _ x hx
  · rcases List.mem_append.1 hx with h | h
    · exact readLines_mem_props _ x h
    · rw [List.mem_singleton] at h
      subst h
      exact ⟨newEntry_stripped qd url, newEntry_ne_nil qd url, newEntry_nlFree qd url hqd hurl⟩

theorem readLines_mk_join (L : List String) (hne : L ≠ [])
    (hnl : ∀ s ∈ L, '\n' ∉ s.toList)
    (hstrip : ∀ s ∈ L, pyStripL s.toList = s.toList)
    (hnonempty : ∀ s ∈ L, s.toList ≠ []) :
    readLines (String.mk (joinNL L ++ ['\n'])) = L := by
  unfold readLines
  rw [show (String.mk (joinNL L ++ ['\n'])).toList = joinNL L ++ ['\n'] from rfl,
    split_joinNL L hne hnl, List.map_append, List.map_map]
  have h1 : L.map (pyStripL ∘ String.toList) = L.map String.toList :=
    List.map_congr_left fun s hs => hstrip s hs
  rw [h1]
  have h2 : ([([] : List Char)].map pyStripL) = [([] : List Char)] := rfl
  rw [h2, List.filter_append]
  have h3 : (L.map String.toList).filter (fun l => !l.isEmpty) = L.map String.toList := by
    refine List.filter_eq_self.2 ?_
    intro a ha
    rcases List.mem_map.1 ha with ⟨s, hs, rfl⟩
    simpa using hnonempty s hs
  have h4 : ([([] : List Char)].filter (fun l => !l.isEmpty)) = [] := rfl
  rw [h3, h4, List.append_nil, List.map_map,
    show (String.mk ∘ String.toList) = id from funext fun s => rfl, List.map_id]

theorem physLines_mk_join (L : List String) (hne : L ≠ [])
    (hnl : ∀ s ∈ L, '\n' ∉ s.toList) :
    physLines (String.mk (joinNL L ++ ['\n'])) = L ++ [""] := by
  unfold physLines
  rw [show (String.mk (joinNL L ++ ['\n'])).toList = joinNL L ++ ['\n'] from rfl,
    split_joinNL L hne hnl, List.map_append, List.map_map,
    show (String.mk ∘ String.toList) = id from funext fun s => rfl, List.map_id]
  rfl

theorem update_main_readme_eq (doc : Option String) (qd : QData) (url : String) :
    update_main_readme doc qd url
      = String.mk (joinNL ((dedupAppend (readLines (contentOf doc)) (newEntry qd url)).take 4
          ++ stableSort entryLe
              (((dedupAppend (readLines (contentOf doc)) (newEntry qd url)).drop 4).filter pipeOK))
          ++ ['\n']) := rfl

theorem mem_outLines {lines : List String} {x : String}
    (hx : x ∈ lines.take 4 ++ stableSort entryLe ((lines.drop 4).filter pipeOK)) :
    x ∈ lines := by
  rcases List.mem_append.1 hx with h | h
  · exact List.Sublist.mem h (List.take_sublist 4 lines)
  · have h1 : x ∈ (lines.drop 4).filter pipeOK := (mem_stableSort entryLe x _).1 h
    have h2 : x ∈ lines.drop 4 := List.Sublist.mem h1 (List.filter_sublist _)
    exact List.Sublist.mem h2 (List.drop_sublist 4 lines)

theorem outLines_ne_nil {lines : List String} (h : lines ≠ []) :
    lines.take 4 ++ stableSort entryLe ((lines.drop 4).filter pipeOK) ≠ [] := by
  obtain ⟨a, L, rfl⟩ := List.exists_cons_of_ne_nil h
  simp [List.take_cons]

set_option maxRecDepth 100000 in
/-- C1: after every invocation of `update_main_readme` (on newline-free record
fields and URL, the only values the script can receive), the lines of the
written document after the 4-line header slice are sorted ascending by the
`keyLe`/`sortKey` order — the numeric value of the id column, with non-numeric
id cells (`none`, Python's `float("inf")`) after all numeric rows; and inserting
id 3 into a document holding rows 5 and 2 yields final row order 2, 3, 5. -/
theorem c1_entries_sorted :
    (∀ (doc : Option String) (qd : QData) (url : String),
        qdNlFree qd = true → nlFree url = true →
        (((physLines (update_main_readme doc qd url)).dropLast).drop 4).Pairwise
          (fun x y => entryLe x y = true))
      ∧ update_main_readme
          (some "# Leetcode\n\n### Leetcode Problem Index\n\n| # | Title | Solution | Tags | Difficulty |\n|:----:|:--------:|:--------:|:-------:|:----------:|\n| 5 | [E](u5) | [Python](problemset/5.e/e.py) | T | Easy |\n| 2 | [B](u2) | [Python](problemset/2.b/b.py) | T | Easy |\n")
          ⟨"3", "C", "c", "Easy", "T"⟩ "u3"
        = "# Leetcode\n### Leetcode Problem Index\n| # | Title | Solution | Tags | Difficulty |\n|:----:|:--------:|:--------:|:-------:|:----------:|\n| 2 | [B](u2) | [Python](problemset/2.b/b.py) | T | Easy |\n| 3 | [C](u3) | [Python](problemset/3.c/c.py) | T | Easy |\n| 5 | [E](u5) | [Python](problemset/5.e/e.py) | T | Easy |\n" := by
  constructor
  · intro doc qd url hqd hurl
    rw [update_main_readme_eq]
    set lines := dedupAppend (readLines (contentOf doc)) (newEntry qd url) with hlines
    set out := lines.take 4 ++ stableSort entryLe ((lines.drop 4).filter pipeOK) with hout
    have hprops := lines_props doc qd url hqd hurl
    have hne : out ≠ [] := outLines_ne_nil (dedup_lines_ne_nil doc qd url)
    have hnl : ∀ s ∈ out, '\n' ∉ s.toList := fun s hs => (hprops s (mem_outLines hs)).2.2
    rw [physLines_mk_join out hne hnl, List.dropLast_concat]
    by_cases hlen : 4 ≤ lines.length
    · have htk : (lines.take 4).length = 4 := by rw [List.length_take]; omega
      rw [hout, List.drop_left' htk]
      exact pairwise_stableSort entryLe entryLe_total entryLe_trans _
    · have hdp : lines.drop 4 = [] := List.drop_eq_nil_of_le (by omega)
      rw [hout, hdp]
      have h0 : stableSort entryLe (List.filter pipeOK []) = [] := rfl
      rw [h0, List.append_nil]
      have h1 : (lines.take 4).drop 4 = [] :=
        List.drop_eq_nil_of_le (by rw [List.length_take]; omega)
      rw [h1]
      exact List.Pairwise.nil
  · decide

/-- Witness for C1 at a concrete invocation. -/
theorem c1_entries_sorted_witness :
    (((physLines (update_main_readme none
        ⟨"1", "Two Sum", "two-sum", "Easy", "Array, Hash Table"⟩
        "https://leetcode.com/problems/two-sum/")).dropLast).drop 4).Pairwise
      (fun x y => entryLe x y = true) :=
  c1_entries_sorted.1 none ⟨"1", "Two Sum", "two-sum", "Easy", "Array, Hash Table"⟩
    "https://leetcode.com/problems/two-sum/" (by decide) (by decide)

/-- C4: on every rewrite pass (newline-free inputs), the entries section of the
written document — its lines after the 4-line header slice — consists exactly
(as a multiset, i.e. up to the sort's reordering) of those post-append entry
lines that have at least 5 `|` characters: every such line is retained and
every line with fewer than 5 is dropped. -/
theorem c4_pipe_filter (doc : Option String) (qd : QData) (url : String)
    (hqd : qdNlFree qd = true) (hurl : nlFree url = true) :
    (((physLines (update_main_readme doc qd url)).dropLast).drop 4).Perm
      (((dedupAppend (readLines (contentOf doc)) (newEntry qd url)).drop 4).filter pipeOK) := by
  rw [update_main_readme_eq]
  set lines := dedupAppend (readLines (contentOf doc)) (newEntry qd url) with hlines
  set out := lines.take 4 ++ stableSort entryLe ((lines.drop 4).filter pipeOK) with hout
  have hprops := lines_props doc qd url hqd hurl
  have hne : out ≠ [] := outLines_ne_nil (dedup_lines_ne_nil doc qd url)
  have hnl : ∀ s ∈ out, '\n' ∉ s.toList := fun s hs => (hprops s (mem_outLines hs)).2.2
  rw [physLines_mk_join out hne hnl, List.dropLast_concat]
  by_cases hlen : 4 ≤ lines.length
  · have htk : (lines.take 4).length = 4 := by rw [List.length_take]; omega
    rw [hout, List.drop_left' htk]
    exact perm_stableSort entryLe _
  · have hdp : lines.drop 4 = [] := List.drop_eq_nil_of_le (by omega)
    rw [hout, hdp]
    have h0 : stableSort entryLe (List.filter pipeOK []) = [] := rfl
    rw [h0, List.append_nil]
    have h1 : (lines.take 4).drop 4 = [] :=
      List.drop_eq_nil_of_le (by rw [List.length_take]; omega)
    rw [h1]
    exact List.Perm.refl _

/-- Witness for C4: a document whose entries section holds a malformed line
(`bad`, 0 delimiters) next to a well-formed row; the rewritten entries section
is a permutation of just the well-formed rows. -/
theorem c4_pipe_filter_witness :
    (((physLines (update_main_readme
        (some "# L\nx\ny\nz\nbad\n| 7 | a | b | c | d |\n")
        ⟨"3", "C", "c", "Easy", "T"⟩ "u3")).dropLast).drop 4).Perm
      (((dedupAppend (readLines (contentOf (some "# L\nx\ny\nz\nbad\n| 7 | a | b | c | d |\n")))
          (newEntry ⟨"3", "C", "c", "Easy", "T"⟩ "u3")).drop 4).filter pipeOK) :=
  c4_pipe_filter (some "# L\nx\ny\nz\nbad\n| 7 | a | b | c | d |\n")
    ⟨"3", "C", "c", "Easy", "T"⟩ "u3" (by decide) (by decide)

/-- C3: the new row is appended only when no already-read (stripped, non-blank)
line is textually identical to it, and the rewrite is idempotent under identical
input: running `update_main_readme` a second time with the same record and URL
(newline-free inputs) leaves the document unchanged — the already-present exact
row is not duplicated. -/
theorem c3_dedup_idempotent :
    (∀ (lines : List String) (e : String), e ∈ lines → dedupAppend lines e = lines)
      ∧ ∀ (doc : Option String) (qd : QData) (url : String),
          qdNlFree qd = true → nlFree url = true →
          update_main_readme (some (update_main_readme doc qd url)) qd url
            = update_main_readme doc qd url := by
  constructor
  · exact fun lines e h => dedupAppend_of_mem lines e h
  · intro doc qd url hqd hurl
    have hprops := lines_props doc qd url hqd hurl
    set lines := dedupAppend (readLines (contentOf doc)) (newEntry qd url) with hlines
    set out := lines.take 4 ++ stableSort entryLe ((lines.drop 4).filter pipeOK) with hout
    have hne : out ≠ [] := outLines_ne_nil (dedup_lines_ne_nil doc qd url)
    have hoprops : ∀ s ∈ out,
        pyStripL s.toList = s.toList ∧ s.toList ≠ [] ∧ '\n' ∉ s.toList :=
      fun s hs => hprops s (mem_outLines hs)
    have hread : readLines (update_main_readme doc qd url) = out := by
      rw [update_main_readme_eq]
      exact readLines_mk_join out hne (fun s hs => (hoprops s hs).2.2)
        (fun s hs => (hoprops s hs).1) (fun s hs => (hoprops s hs).2.1)
    have hnew : newEntry qd url ∈ out := by
      have h0 : newEntry qd url ∈ lines := mem_dedupAppend_self _ _
      rw [← List.take_append_drop 4 lines] at h0
      rcases List.mem_append.1 h0 with h | h
      · exact List.mem_append.2 (.inl h)
      · exact List.mem_append.2 (.inr ((mem_stableSort entryLe _ _).2
          (List.mem_filter.2 ⟨h, pipeOK_newEntry qd url⟩)))
    suffices hS : out.take 4 ++ stableSort entryLe ((out.drop 4).filter pipeOK) = out by
      calc update_main_readme (some (update_main_readme doc qd url)) qd url
          = String.mk (joinNL (out.take 4 ++ stableSort entryLe ((out.drop 4).filter pipeOK))
              ++ ['\n']) := by
            rw [update_main_readme_eq (some (update_main_readme doc qd url)) qd url,
              show contentOf (some (update_main_readme doc qd url))
                = update_main_readme doc qd url from rfl,
              hread, dedupAppend_of_mem out _ hnew]
        _ = String.mk (joinNL out ++ ['\n']) := by rw [hS]
        _ = update_main_readme doc qd url := by
            rw [update_main_readme_eq doc qd url]
    by_cases hlen : 4 ≤ lines.length
    · have htk : (lines.take 4).length = 4 := by rw [List.length_take]; omega
      have h1 : out.take 4 = lines.take 4 := by
        rw [hout, List.take_left' htk]
      have h2 : out.drop 4 = stableSort entryLe ((lines.drop 4).filter pipeOK) := by
        rw [hout, List.drop_left' htk]
      have h3 : (stableSort entryLe ((lines.drop 4).filter pipeOK)).filter pipeOK
          = stableSort entryLe ((lines.drop 4).filter pipeOK) := by
        refine List.filter_eq_self.2 ?_
        intro a ha
        exact List.of_mem_filter ((mem_stableSort entryLe a _).1 ha)
      have h4 : stableSort entryLe (stableSort entryLe ((lines.drop 4).filter pipeOK))
          = stableSort entryLe ((lines.drop 4).filter pipeOK) :=
        stableSort_eq_of_pairwise entryLe _
          (pairwise_stableSort entryLe entryLe_total entryLe_trans _)
      rw [h1, h2, h3, h4, hout]
    · have hdp : lines.drop 4 = [] := List.drop_eq_nil_of_le (by omega)
      have hlt : out = lines.take 4 := by
        rw [hout, hdp]
        simp [stableSort]
      have htake : out.take 4 = out :=
        List.take_of_length_le (by rw [hlt, List.length_take]; omega)
      have hdrop : out.drop 4 = [] :=
        List.drop_eq_nil_of_le (by rw [hlt, List.length_take]; omega)
      rw [htake, hdrop]
      simp [stableSort]

/-- Witness for C3: inserting Two Sum twice from scratch, and a direct
already-present dedup instance. -/
theorem c3_dedup_idempotent_witness :
    update_main_readme
        (some (update_main_readme none ⟨"1", "Two Sum", "two-sum", "Easy", "Array, Hash Table"⟩
          "https://leetcode.com/problems/two-sum/"))
        ⟨"1", "Two Sum", "two-sum", "Easy", "Array, Hash Table"⟩
        "https://leetcode.com/problems/two-sum/"
      = update_main_readme none ⟨"1", "Two Sum", "two-sum", "Easy", "Array, Hash Table"⟩
          "https://leetcode.com/problems/two-sum/"
      ∧ dedupAppend ["| 1 | r |"] "| 1 | r |" = ["| 1 | r |"] :=
  ⟨c3_dedup_idempotent.2 none ⟨"1", "Two Sum", "two-sum", "Easy", "Array, Hash Table"⟩
      "https://leetcode.com/problems/two-sum/" (by decide) (by decide),
    c3_dedup_idempotent.1 ["| 1 | r |"] "| 1 | r |" (by decide)⟩

theorem markerL_length : markerL.length = 9 := rfl

theorem matchSlugAt_eq (l : List Char) :
    matchSlugAt l = if fullMatchAt l 0 = true then some ((l.drop 9).takeWhile notSlash)
      else none := by
  have h09 : (0 : Nat) + 9 = 9 := rfl
  by_cases hp : markerL.isPrefixOf l = true
  · simp only [matchSlugAt, fullMatchAt, List.drop_zero, h09, hp, Bool.true_and, if_true]
    cases hd : l.drop 9 with
    | nil => simp
    | cons c t =>
      cases hnc : notSlash c
      · simp [List.takeWhile_cons, hnc]
      · simp [List.takeWhile_cons, hnc]
  · have hp' : markerL.isPrefixOf l = false := by
      revert hp
      cases markerL.isPrefixOf l <;> simp
    simp [matchSlugAt, fullMatchAt, hp']

theorem fullMatchAt_cons (c : Char) (l : List Char) (i : Nat) :
    fullMatchAt (c :: l) (i + 1) = fullMatchAt l i := by
  unfold fullMatchAt
  rw [List.drop_succ_cons, show i + 1 + 9 = (i + 9) + 1 from by omega, List.drop_succ_cons]

theorem fullMatchAt_nil (i : Nat) : fullMatchAt [] i = false := by
  unfold fullMatchAt
  rw [List.drop_nil, List.drop_nil]
  decide

theorem searchSlug_iff (l : List Char) : ∀ s : List Char,
    searchSlug l = some s ↔
      ∃ i, fullMatchAt l i = true ∧ (∀ j, j < i → fullMatchAt l j = false)
        ∧ s = (l.drop (i + 9)).takeWhile notSlash := by
  induction l with
  | nil =>
    intro s
    constructor
    · intro h
      exact Option.noConfusion h
    · rintro ⟨i, hi, -, -⟩
      rw [fullMatchAt_nil] at hi
      exact Bool.noConfusion hi
  | cons c r ih =>
    intro s
    cases hm : matchSlugAt (c :: r) with
    | some s0 =>
      have h0 : fullMatchAt (c :: r) 0 = true ∧ s0 = ((c :: r).drop 9).takeWhile notSlash := by
        have he := matchSlugAt_eq (c :: r)
        rw [hm] at he
        cases hf : fullMatchAt (c :: r) 0
        · rw [hf] at he
          simp at he
        · rw [hf] at he
          simp at he
          exact ⟨rfl, he⟩
      have hL : searchSlug (c :: r) = some s0 := by
        show (match matchSlugAt (c :: r) with | some s => some s | none => searchSlug r) = some s0
        rw [hm]
      rw [hL]
      constructor
      · intro h
        refine ⟨0, h0.1, fun j hj => absurd hj (Nat.not_lt_zero j), ?_⟩
        have hss : s0 = s := by
          injection h
        rw [← hss]
        exact h0.2
      · rintro ⟨i, hi, hmin, hs⟩
        cases i with
        | zero =>
          rw [hs, ← h0.2]
        | succ i =>
          have := hmin 0 (Nat.succ_pos i)
          rw [this] at h0
          exact Bool.noConfusion h0.1
    | none =>
      have h0 : fullMatchAt (c :: r) 0 = false := by
        have he := matchSlugAt_eq (c :: r)
        rw [hm] at he
        cases hf : fullMatchAt (c :: r) 0
        · rfl
        · rw [hf] at he
          simp at he
      have hL : searchSlug (c :: r) = searchSlug r := by
        show (match matchSlugAt (c :: r) with | some s => some s | none => searchSlug r)
          = searchSlug r
        rw [hm]
      rw [hL, ih s]
      constructor
      · rintro ⟨i, hi, hmin, hs⟩
        refine ⟨i + 1, ?_, ?_, ?_⟩
        · rw [fullMatchAt_cons]
          exact hi
        · intro j hj
          cases j with
          | zero => exact h0
          | succ j =>
            rw [fullMatchAt_cons]
            exact hmin j (by omega)
        · rw [show i + 1 + 9 = (i + 9) + 1 from by omega, List.drop_succ_cons]
          exact hs
      · rintro ⟨i, hi, hmin, hs⟩
        cases i with
        | zero =>
          rw [h0] at hi
          exact Bool.noConfusion hi
        | succ i =>
          refine ⟨i, ?_, ?_, ?_⟩
          · rw [← fullMatchAt_cons c r i]
            exact hi
          · intro j hj
            have hj1 := hmin (j + 1) (by omega)
            rw [fullMatchAt_cons] at hj1
            exact hj1
          · rw [show i + 1 + 9 = (i + 9) + 1 from by omega, List.drop_succ_cons] at hs
            exact hs

theorem marker_no_overlap (l t : List Char) (hl : l ≠ [])
    (h : markerL.isPrefixOf (l ++ (markerL ++ t)) = true) : markerL <:+: l := by
  rw [List.isPrefixOf_iff_prefix] at h
  by_cases hlen : 9 ≤ l.length
  · have h2 : markerL <+: l :=
      List.prefix_of_prefix_length_le h (List.prefix_append l _)
        (by rw [markerL_length]; exact hlen)
    exact h2.isInfix
  · exfalso
    have hl1 : 1 ≤ l.length := by
      cases l with
      | nil => exact absurd rfl hl
      | cons a u => simp
    have hl9 : l.length ≤ markerL.length := by rw [markerL_length]; omega
    have hlm : l <+: markerL := List.prefix_of_prefix_length_le (List.prefix_append l _) h hl9
    obtain ⟨u, hu⟩ := hlm
    have h3 : u <+: markerL ++ t := by
      obtain ⟨v, hv⟩ := h
      refine ⟨v, ?_⟩
      have hv2 : (l ++ u) ++ v = l ++ (markerL ++ t) := by
        rw [hu]
        exact hv
      rw [List.append_assoc] at hv2
      exact List.append_cancel_left hv2
    have hm9 : markerL.length = 9 := rfl
    have hu_len : u.length ≤ markerL.length := by
      have hlu := congrArg List.length hu
      rw [List.length_append] at hlu
      omega
    have h4 : u <+: markerL := List.prefix_of_prefix_length_le h3 (List.prefix_append markerL t) hu_len
    have hu2 : markerL.drop l.length = u := by
      rw [← hu, List.drop_left]
    have key : ∀ k : Fin 9, k.val = 0 ∨ ¬ (markerL.drop k.val <+: markerL) := by decide
    have hk := key ⟨l.length, by omega⟩
    rcases hk with hk | hk
    · simp only at hk
      omega
    · rw [hu2] at hk
      exact hk h4

theorem matchSlugAt_marker (t : List Char) :
    matchSlugAt (markerL ++ t)
      = if (t.takeWhile notSlash).isEmpty = true then none else some (t.takeWhile notSlash) := by
  simp only [matchSlugAt]
  rw [if_pos (List.isPrefixOf_iff_prefix.2 (List.prefix_append markerL t)),
    List.drop_left' markerL_length]

theorem searchSlug_append (pre t res : List Char)
    (hm : matchSlugAt (markerL ++ t) = some res)
    (hpre : ¬ markerL <:+: pre) :
    searchSlug (pre ++ (markerL ++ t)) = some res := by
  induction pre with
  | nil =>
    rw [List.nil_append]
    show (match matchSlugAt (markerL ++ t) with | some s => some s | none => searchSlug _)
      = some res
    rw [hm]
  | cons c pre ih =>
    have hmc : matchSlugAt (c :: (pre ++ (markerL ++ t))) = none := by
      simp only [matchSlugAt]
      cases hp : markerL.isPrefixOf (c :: (pre ++ (markerL ++ t)))
      · simp [hp]
      · exfalso
        have hov := marker_no_overlap (c :: pre) t (by simp) hp
        exact hpre hov
    rw [List.cons_append]
    show (match matchSlugAt (c :: (pre ++ (markerL ++ t))) with
      | some s => some s | none => searchSlug (pre ++ (markerL ++ t))) = some res
    rw [hmc]
    show searchSlug (pre ++ (markerL ++ t)) = some res
    exact ih (fun h => hpre (List.infix_cons h))

theorem takeWhile_append_not (p : α → Bool) :
    ∀ (l1 : List α) (a : α) (l2 : List α), (∀ x ∈ l1, p x = true) → p a = false →
      (l1 ++ a :: l2).takeWhile p = l1 := by
  intro l1
  induction l1 with
  | nil =>
    intro a l2 _ ha
    simp [List.takeWhile_cons, ha]
  | cons b l ih =>
    intro a l2 hall ha
    rw [List.cons_append, List.takeWhile_cons, if_pos (hall b (List.mem_cons_self b l)),
      ih a l2 (fun x hx => hall x (List.mem_cons_of_mem b hx)) ha]

theorem searchSlug_decomp : ∀ (l s : List Char), searchSlug l = some s →
    ∃ (p : List Char) (c : Char) (r : List Char), l = p ++ markerL ++ c :: r ∧ c ≠ '/' := by
  intro l
  induction l with
  | nil =>
    intro s h
    exact Option.noConfusion h
  | cons a r ih =>
    intro s h
    have h' : (match matchSlugAt (a :: r) with | some s => some s | none => searchSlug r)
        = some s := h
    cases hm : matchSlugAt (a :: r) with
    | some s0 =>
      simp only [matchSlugAt] at hm
      by_cases hp : markerL.isPrefixOf (a :: r) = true
      · rw [if_pos hp] at hm
        by_cases hrun : (((a :: r).drop 9).takeWhile notSlash).isEmpty = true
        · rw [if_pos hrun] at hm
          exact Option.noConfusion hm
        · obtain ⟨t, ht⟩ := List.isPrefixOf_iff_prefix.1 hp
          have hdrop : (a :: r).drop 9 = t := by
            rw [← ht, List.drop_left' markerL_length]
          cases htc : t with
          | nil =>
            rw [hdrop, htc] at hrun
            simp at hrun
          | cons c rest =>
            refine ⟨[], c, rest, ?_, ?_⟩
            · rw [List.nil_append, ← ht, htc]
            · rw [hdrop, htc, List.takeWhile_cons] at hrun
              by_cases hnc : notSlash c = true
              · intro hcc
                rw [hcc] at hnc
                exact absurd hnc (by decide)
              · rw [if_neg hnc] at hrun
                simp at hrun
      · rw [if_neg hp] at hm
        exact Option.noConfusion hm
    | none =>
      rw [hm] at h'
      have h'' : searchSlug r = some s := h'
      obtain ⟨p, c, rest, heq, hc⟩ := ih s h''
      exact ⟨a :: p, c, rest, by rw [List.cons_append, List.cons_append, heq], hc⟩

/-- C5: for every URL of the form `<pre>problems/<slug>/<post>` whose prefix
does not itself contain the marker `problems/` (so the exhibited marker is the
definite "the literal marker" of the spec), the extractor returns exactly
`<slug>`; and for every URL with no occurrence of `problems/` followed by at
least one non-`/` character, it returns the not-found signal `none`. -/
theorem c5_slug_extraction :
    (∀ pre slug post : String, ¬ (markerL <:+: pre.toList) → slug.toList ≠ [] →
        (∀ c ∈ slug.toList, c ≠ '/') →
        extract_question_slug (pre ++ "problems/" ++ slug ++ "/" ++ post) = some slug)
      ∧ ∀ url : String,
          (¬ ∃ (p : List Char) (c : Char) (r : List Char),
              url.toList = p ++ markerL ++ c :: r ∧ c ≠ '/') →
          extract_question_slug url = none := by
  constructor
  · intro pre slug post hpre hne hnos
    unfold extract_question_slug
    have hsl : ("/" : String).toList = ['/'] := rfl
    have htl : (pre ++ "problems/" ++ slug ++ "/" ++ post).toList
        = pre.toList ++ (markerL ++ (slug.toList ++ '/' :: post.toList)) := by
      simp [toList_append, List.append_assoc, markerL, hsl]
    rw [htl]
    have hmatch : matchSlugAt (markerL ++ (slug.toList ++ '/' :: post.toList))
        = some slug.toList := by
      rw [matchSlugAt_marker]
      have ht : (slug.toList ++ '/' :: post.toList).takeWhile notSlash = slug.toList :=
        takeWhile_append_not notSlash slug.toList '/' post.toList
          (fun x hx => by simp [notSlash]; exact hnos x hx) (by decide)
      rw [ht, if_neg (by rw [List.isEmpty_eq_true]; exact hne)]
    rw [searchSlug_append pre.toList _ slug.toList hmatch hpre]
    rfl
  · intro url hno
    cases hs : searchSlug url.toList with
    | none =>
      unfold extract_question_slug
      rw [hs]
      rfl
    | some s0 =>
      exfalso
      obtain ⟨p, c, r, heq, hc⟩ := searchSlug_decomp url.toList s0 hs
      exact hno ⟨p, c, r, heq, hc⟩

theorem searchSlug_isSome_of_decomp (l p : List Char) (c : Char) (r : List Char)
    (heq : l = p ++ markerL ++ c :: r) (hc : c ≠ '/') : ∃ s, searchSlug l = some s := by
  have hP : fullMatchAt l p.length = true := by
    subst heq
    unfold fullMatchAt
    rw [Bool.and_eq_true]
    constructor
    · rw [List.append_assoc, List.drop_left]
      exact List.isPrefixOf_iff_prefix.2 (List.prefix_append _ _)
    · rw [List.append_assoc, List.drop_append, List.drop_left' markerL_length]
      simp [notSlash, hc]
  have hex : ∃ i, fullMatchAt l i = true := ⟨p.length, hP⟩
  refine ⟨(l.drop (Nat.find hex + 9)).takeWhile notSlash, ?_⟩
  rw [searchSlug_iff]
  exact ⟨Nat.find hex, Nat.find_spec hex,
    fun j hj => by simpa using Nat.find_min hex hj, rfl⟩

/-- Witness for C5: the Two Sum URL yields `two-sum`; a URL without the pattern
yields `none`. -/
theorem c5_slug_extraction_witness :
    extract_question_slug ("https://leetcode.com/" ++ "problems/" ++ "two-sum" ++ "/" ++ "")
        = some "two-sum"
      ∧ extract_question_slug "https://leetcode.com/discuss/general" = none :=
  ⟨c5_slug_extraction.1 "https://leetcode.com/" "two-sum" "" (by decide) (by decide)
      (by decide),
    c5_slug_extraction.2 "https://leetcode.com/discuss/general" (by
      rintro ⟨p, c, r, heq, hc⟩
      obtain ⟨s, hs⟩ := searchSlug_isSome_of_decomp _ p c r heq hc
      have hnone : searchSlug ("https://leetcode.com/discuss/general".toList) = none := by
        decide
      rw [hnone] at hs
      exact Option.noConfusion hs)⟩

/-- C10 counterexample: in `problems//problems/abc` the first occurrence of the
substring `problems/` (offset 0) is immediately followed by `/`, so the maximal
run of non-`/` characters following the FIRST occurrence — the claim's value,
computed by `firstMarkerRun` — is the empty run, while `extract_question_slug`
returns `abc`: the regex search skips occurrences that `[^/]+` cannot complete. -/
theorem c10_first_occurrence_cex :
    firstMarkerRun "problems//problems/abc".toList = some []
      ∧ extract_question_slug "problems//problems/abc" = some "abc"
      ∧ (some (String.mk []) ≠ some "abc") := by decide

/-- C10 (amended): `extract_question_slug` returns the maximal run of non-`/`
characters immediately following the first occurrence of `problems/` that is
followed by at least one non-`/` character (the first offset where the whole
pattern `problems/([^/]+)` matches — so a URL ending in `problems/<slug>`
without a trailing slash still yields `<slug>`, and characters such as `?`
after the slug are included); it returns `none` when no such occurrence
exists. -/
theorem c10_first_full_match (url : String) (s : String) :
    extract_question_slug url = some s ↔
      ∃ i, fullMatchAt url.toList i = true
        ∧ (∀ j, j < i → fullMatchAt url.toList j = false)
        ∧ s = String.mk ((url.toList.drop (i + 9)).takeWhile notSlash) := by
  unfold extract_question_slug
  cases hs : searchSlug url.toList with
  | none =>
    simp only [Option.map_none']
    constructor
    · intro h
      exact Option.noConfusion h
    · rintro ⟨i, hi, hmin, rfl⟩
      have hsome := (searchSlug_iff url.toList
          ((url.toList.drop (i + 9)).takeWhile notSlash)).2 ⟨i, hi, hmin, rfl⟩
      rw [hs] at hsome
      exact Option.noConfusion hsome
  | some s0 =>
    obtain ⟨i', hi', hmin', hs0⟩ := (searchSlug_iff url.toList s0).1 hs
    simp only [Option.map_some']
    constructor
    · intro h
      have hss : String.mk s0 = s := by injection h
      exact ⟨i', hi', hmin', by rw [← hss, hs0]⟩
    · rintro ⟨i, hi, hmin, rfl⟩
      have hii : i = i' := by
        rcases Nat.lt_trichotomy i i' with h | h | h
        · exact absurd hi (by rw [hmin' i h]; simp)
        · exact h
        · exact absurd hi' (by rw [hmin i' h]; simp)
      subst hii
      rw [hs0]

/-- Witness for the amended C10 at a URL with no trailing slash. -/
theorem c10_first_full_match_witness :
    ∃ i, fullMatchAt "x/problems/two-sum".toList i = true
      ∧ (∀ j, j < i → fullMatchAt "x/problems/two-sum".toList j = false)
      ∧ "two-sum" = String.mk (("x/problems/two-sum".toList.drop (i + 9)).takeWhile notSlash) :=
  (c10_first_full_match "x/problems/two-sum" "two-sum").1 (by decide)

end LC
